import Mathlib

/-!
Verification development for the Merkle-tree commitment program in `src/main.py`
(rot13maxi/MerkleRootInterview).

The program is shallowly embedded: byte strings (`bytes`) become `List Nat`
(each entry one byte), Python strings become Lean `String`, SHA-256 is
implemented executably over `Nat` with explicit reduction modulo `2 ^ 32`,
dynamic Python values fed to `validate_proof` become the inductive `Py`, and
Python exceptions become the `Except PyErr` monad.  The `while` loop in
`make_merkle_tree` is embedded as the fuel-indexed function `buildLoop`
(`none` models a computation that pops from an empty level or runs out of
fuel; a sufficient fuel bound is proved for the reachable inputs).
-/

/-- Byte strings: one `Nat` per byte (the program only ever hashes bytes). -/
abbrev Bytes : Type := List Nat

/-- Truncate to a 32-bit word, `x % 2^32`. -/
def w32 (x : Nat) : Nat := x % 4294967296

/-- Right rotation of a 32-bit word by `n` places. -/
def rotr (n x : Nat) : Nat := w32 ((x >>> n) ||| (x <<< (32 - n)))

/-- SHA-256 Σ0. -/
def bsig0 (x : Nat) : Nat := rotr 2 x ^^^ rotr 13 x ^^^ rotr 22 x

/-- SHA-256 Σ1. -/
def bsig1 (x : Nat) : Nat := rotr 6 x ^^^ rotr 11 x ^^^ rotr 25 x

/-- SHA-256 σ0. -/
def ssig0 (x : Nat) : Nat := rotr 7 x ^^^ rotr 18 x ^^^ (x >>> 3)

/-- SHA-256 σ1. -/
def ssig1 (x : Nat) : Nat := rotr 17 x ^^^ rotr 19 x ^^^ (x >>> 10)

/-- SHA-256 round constants. -/
def shaK : List Nat :=
  [1116352408, 1899447441, 3049323471, 3921009573, 961987163, 1508970993,
   2453635748, 2870763221, 3624381080, 310598401, 607225278, 1426881987,
   1925078388, 2162078206, 2614888103, 3248222580, 3835390401, 4022224774,
   264347078, 604807628, 770255983, 1249150122, 1555081692, 1996064986,
   2554220882, 2821834349, 2952996808, 3210313671, 3336571891, 3584528711,
   113926993, 338241895, 666307205, 773529912, 1294757372, 1396182291,
   1695183700, 1986661051, 2177026350, 2456956037, 2730485921, 2820302411,
   3259730800, 3345764771, 3516065817, 3600352804, 4094571909, 275423344,
   430227734, 506948616, 659060556, 883997877, 958139571, 1322822218,
   1537002063, 1747873779, 1955562222, 2024104815, 2227730452, 2361852424,
   2428436474, 2756734187, 3204031479, 3329325298]

/-- SHA-256 working state: eight 32-bit words. -/
structure Regs where
  a : Nat
  b : Nat
  c : Nat
  d : Nat
  e : Nat
  f : Nat
  g : Nat
  hh : Nat
deriving DecidableEq

/-- SHA-256 initial hash value. -/
def initRegs : Regs :=
  ⟨1779033703, 3144134277, 1013904242, 2773480762, 1359893119, 2600822924,
   528734635, 1541459225⟩

/-- One SHA-256 compression round; `kw` is the round constant plus schedule word. -/
def shaRound (st : Regs) (kw : Nat) : Regs :=
  let ch := (st.e &&& st.f) ^^^ ((4294967295 ^^^ st.e) &&& st.g)
  let maj := (st.a &&& st.b) ^^^ (st.a &&& st.c) ^^^ (st.b &&& st.c)
  let t1 := w32 (st.hh + bsig1 st.e + ch + kw)
  let t2 := w32 (bsig0 st.a + maj)
  ⟨w32 (t1 + t2), st.a, st.b, st.c, w32 (st.d + t1), st.e, st.f, st.g⟩

/-- Extend a 16-word block by `n` further schedule words. -/
def extendW : Nat → List Nat → List Nat
  | 0, ws => ws
  | n + 1, ws =>
    let len := ws.length
    let next := w32 (ssig1 (ws.getD (len - 2) 0) + ws.getD (len - 7) 0 +
      ssig0 (ws.getD (len - 15) 0) + ws.getD (len - 16) 0)
    extendW n (ws ++ [next])

/-- Process one 512-bit block (sixteen 32-bit words) into the running state. -/
def compressBlock (st : Regs) (block : List Nat) : Regs :=
  let w := extendW 48 block
  let kw := (shaK.zip w).map (fun p => w32 (p.1 + p.2))
  let fin := kw.foldl shaRound st
  ⟨w32 (st.a + fin.a), w32 (st.b + fin.b), w32 (st.c + fin.c), w32 (st.d + fin.d),
   w32 (st.e + fin.e), w32 (st.f + fin.f), w32 (st.g + fin.g), w32 (st.hh + fin.hh)⟩

/-- SHA-256 message padding: append `0x80`, zeros to 56 mod 64, then the
bit length as eight big-endian bytes. -/
def padMsg (m : List Nat) : List Nat :=
  let bl := 8 * m.length
  m ++ 128 :: List.replicate ((119 - m.length % 64) % 64) 0 ++
    [(bl >>> 56) % 256, (bl >>> 48) % 256, (bl >>> 40) % 256, (bl >>> 32) % 256,
     (bl >>> 24) % 256, (bl >>> 16) % 256, (bl >>> 8) % 256, bl % 256]

/-- Pack bytes into 32-bit big-endian words. -/
def words4 : List Nat → List Nat
  | a :: b :: c :: d :: rest => (a * 16777216 + b * 65536 + c * 256 + d) :: words4 rest
  | _ => []

/-- Split a word list into 16-word blocks. -/
def blocks16 : List Nat → List (List Nat)
  | w0 :: w1 :: w2 :: w3 :: w4 :: w5 :: w6 :: w7 ::
    w8 :: w9 :: w10 :: w11 :: w12 :: w13 :: w14 :: w15 :: rest =>
      [w0, w1, w2, w3, w4, w5, w6, w7, w8, w9, w10, w11, w12, w13, w14, w15] ::
        blocks16 rest
  | _ => []

/-- Lowercase hexadecimal digit. -/
def hexDigit (n : Nat) : Char := if n < 10 then Char.ofNat (48 + n) else Char.ofNat (87 + n)

/-- Eight lowercase hex characters of a 32-bit word, most significant first. -/
def hexWord (w : Nat) : List Char :=
  [hexDigit ((w >>> 28) % 16), hexDigit ((w >>> 24) % 16), hexDigit ((w >>> 20) % 16),
   hexDigit ((w >>> 16) % 16), hexDigit ((w >>> 12) % 16), hexDigit ((w >>> 8) % 16),
   hexDigit ((w >>> 4) % 16), hexDigit (w % 16)]

/-- SHA-256 digest of a byte string, as the final eight 32-bit words. -/
def sha256Words (m : List Nat) : Regs :=
  (blocks16 (words4 (padMsg m))).foldl compressBlock initRegs

/--
`h(item)` from `src/main.py` lines 12-19: the hex-encoded SHA-256 digest of a
byte string (`hashlib.sha256`, `hexdigest()`).
-/
def h (item : Bytes) : String :=
  let r := sha256Words item
  ⟨hexWord r.a ++ hexWord r.b ++ hexWord r.c ++ hexWord r.d ++
   hexWord r.e ++ hexWord r.f ++ hexWord r.g ++ hexWord r.hh⟩

/-- UTF-8 encoding of one character (Python `str.encode("utf-8")`). -/
def encChar (c : Char) : List Nat :=
  let n := c.toNat
  if n < 128 then [n]
  else if n < 2048 then [192 + n / 64, 128 + n % 64]
  else if n < 65536 then [224 + n / 4096, 128 + (n / 64) % 64, 128 + n % 64]
  else [240 + n / 262144, 128 + (n / 4096) % 64, 128 + (n / 64) % 64, 128 + n % 64]

/-- UTF-8 bytes of a string (Python `s.encode("utf-8")`). -/
def utf8Bytes (s : String) : Bytes := s.data.flatMap encChar

/--
The sorted-pair hash used both by `ParentNode.hash` (`src/main.py` lines 42-44)
and by the recombination step inside `validate_proof.hash_item` (lines 102-103):
`s = sorted([a, b]); h(("%s:%s" % (s[0], s[1])).encode("utf-8"))`.
Python `sorted` on a two-element list swaps exactly when the second element is
less than the first; string order is code-point lexicographic in both languages.
-/
def combine (a b : String) : String :=
  let s := if b < a then (b, a) else (a, b)
  h (utf8Bytes (s.1 ++ ":" ++ s.2))

/--
The tree's node type: `LeafNode` (`src/main.py` lines 27-34, `contents` is
`None` for padding leaves) and `ParentNode` (lines 37-44).
-/
inductive Node where
  | leaf (contents : Option Bytes)
  | parent (left right : Node)
deriving DecidableEq

/--
`Node.hash`: `LeafNode.hash` returns `h(b"empty")` when `contents is None` and
`h(contents)` otherwise (lines 31-34); `ParentNode.hash` hashes the sorted,
`":"`-separated pair of the children's digests (lines 42-44).
-/
def Node.hash : Node → String
  | .leaf none => h (utf8Bytes "empty")
  | .leaf (some c) => h c
  | .parent l r => combine l.hash r.hash

/-- The digests of the leaves of a tree, left to right. -/
def Node.leafHashes : Node → List String
  | .leaf c => [Node.hash (.leaf c)]
  | .parent l r => l.leafHashes ++ r.leafHashes

/-- Fuelled floor base-2 logarithm (executable stand-in for `math.log2` on naturals). -/
def log2F : Nat → Nat → Nat
  | 0, _ => 0
  | f + 1, n => if n ≤ 1 then 0 else log2F f (n / 2) + 1

/-- Floor base-2 logarithm. -/
def log2 (n : Nat) : Nat := log2F n n

/-- Fuelled ceiling base-2 logarithm. -/
def clog2F : Nat → Nat → Nat
  | 0, _ => 0
  | f + 1, n => if n ≤ 1 then 0 else clog2F f ((n + 1) / 2) + 1

/-- Ceiling base-2 logarithm (`math.ceil(math.log2 n)` for `n ≥ 1`). -/
def clog2 (n : Nat) : Nat := clog2F n n

/-- `math.log2(n).is_integer()`: whether `n` is a power of two (`n ≥ 1`). -/
def isPow2 (n : Nat) : Bool := n == 2 ^ log2 n

/--
The padding step of `make_merkle_tree` (`src/main.py` lines 52-58): when the
level's length is not a power of two, append `LeafNode(None)` padding leaves
until the length reaches `2 ** math.ceil(math.log2 n)`.
-/
def padLevel (l : List Node) : List Node :=
  if isPow2 l.length then l
  else l ++ List.replicate (2 ^ clog2 l.length - l.length) (Node.leaf none)

/-- Pop from the end of a Python list (`list.pop()`); `none` models `IndexError`. -/
def popEnd (l : List Node) : Option (Node × List Node) :=
  match l.reverse with
  | [] => none
  | a :: rest => some (a, rest.reverse)

/--
The `while True` loop of `make_merkle_tree` (`src/main.py` lines 59-67),
embedded with explicit fuel: return the sole node once the current level is a
singleton and the next level is empty; otherwise pop two nodes off the end of
the current level, push their parent onto the next level, and swap levels when
the current one empties.  `none` models fuel exhaustion or `IndexError`.
-/
def buildLoop : Nat → List Node → List Node → Option Node
  | 0, _, _ => none
  | fuel + 1, curr, next =>
    if curr.length = 1 ∧ next = [] then curr.head?
    else
      match popEnd curr with
      | none => none
      | some (l, c1) =>
        match popEnd c1 with
        | none => none
        | some (r, c2) =>
          let next1 := next ++ [Node.parent l r]
          if c2 = [] then buildLoop fuel next1 [] else buildLoop fuel c2 next1

/--
Result of `make_merkle_tree`: the function returns the digest *string*
`LeafNode(None).hash()` when `items` is empty (line 49) and a `Node` otherwise.
-/
inductive BuildResult where
  | str (s : String)
  | node (n : Node)
deriving DecidableEq

/--
`make_merkle_tree` (`src/main.py` lines 47-67).  The loop fuel
`length + 1` is sufficient: a level of `m` nodes needs `m - 1` pop-pair
iterations plus the final singleton check.
-/
def makeMerkleTree (items : List Bytes) : Option BuildResult :=
  if items.length = 0 then some (.str (Node.hash (.leaf none)))
  else
    let curr := padLevel (items.map (fun i => Node.leaf (some i)))
    (buildLoop (curr.length + 1) curr []).map .node

/-- Python runtime values that flow through `make_merkle_proof` / `validate_proof`. -/
inductive Py where
  | none
  | str (s : String)
  | int (n : Int)
  | list (l : List Py)

/-- Python exceptions that the program can raise. -/
inductive PyErr where
  | attributeError
  | indexError
  | typeError
deriving DecidableEq

mutual

/-- Decidable structural equality of Python values. -/
def Py.decEq : (a b : Py) → Decidable (a = b)
  | .none, .none => isTrue rfl
  | .none, .str _ => isFalse (fun hc => Py.noConfusion hc)
  | .none, .int _ => isFalse (fun hc => Py.noConfusion hc)
  | .none, .list _ => isFalse (fun hc => Py.noConfusion hc)
  | .str _, .none => isFalse (fun hc => Py.noConfusion hc)
  | .str a, .str b =>
    match (inferInstanceAs (DecidableEq String)) a b with
    | isTrue hh => isTrue (hh ▸ rfl)
    | isFalse hh => isFalse (fun he => hh (by injection he))
  | .str _, .int _ => isFalse (fun hc => Py.noConfusion hc)
  | .str _, .list _ => isFalse (fun hc => Py.noConfusion hc)
  | .int _, .none => isFalse (fun hc => Py.noConfusion hc)
  | .int _, .str _ => isFalse (fun hc => Py.noConfusion hc)
  | .int a, .int b =>
    match (inferInstanceAs (DecidableEq Int)) a b with
    | isTrue hh => isTrue (hh ▸ rfl)
    | isFalse hh => isFalse (fun he => hh (by injection he))
  | .int _, .list _ => isFalse (fun hc => Py.noConfusion hc)
  | .list _, .none => isFalse (fun hc => Py.noConfusion hc)
  | .list _, .str _ => isFalse (fun hc => Py.noConfusion hc)
  | .list _, .int _ => isFalse (fun hc => Py.noConfusion hc)
  | .list a, .list b =>
    match Py.decEqList a b with
    | isTrue hh => isTrue (hh ▸ rfl)
    | isFalse hh => isFalse (fun he => hh (by injection he))

/-- Decidable structural equality of lists of Python values. -/
def Py.decEqList : (a b : List Py) → Decidable (a = b)
  | [], [] => isTrue rfl
  | [], _ :: _ => isFalse (fun hc => List.noConfusion hc)
  | _ :: _, [] => isFalse (fun hc => List.noConfusion hc)
  | a :: as, b :: bs =>
    match Py.decEq a b, Py.decEqList as bs with
    | isTrue h1, isTrue h2 => isTrue (by rw [h1, h2])
    | isFalse h1, _ => isFalse (fun he => h1 (by injection he))
    | isTrue _, isFalse h2 => isFalse (fun he => h2 (by injection he))

end

instance : DecidableEq Py := Py.decEq

instance {ε α : Type} [DecidableEq ε] [DecidableEq α] : DecidableEq (Except ε α)
  | .ok a, .ok b =>
    match decEq a b with
    | isTrue hh => isTrue (hh ▸ rfl)
    | isFalse hh => isFalse (fun he => hh (by injection he))
  | .ok _, .error _ => isFalse (fun hc => Except.noConfusion hc)
  | .error _, .ok _ => isFalse (fun hc => Except.noConfusion hc)
  | .error a, .error b =>
    match decEq a b with
    | isTrue hh => isTrue (hh ▸ rfl)
    | isFalse hh => isFalse (fun he => hh (by injection he))

/-- Python `is None` test. -/
def Py.isNone : Py → Bool
  | .none => true
  | _ => false

/-- Python truthiness of the values occurring here (`bool(x)`). -/
def Py.truthy : Py → Bool
  | .none => false
  | .str s => !(s == "")
  | .int n => !(n == 0)
  | .list l => !l.isEmpty

/-- Python `a or b`: `a` if truthy, else `b`. -/
def pyOr (a b : Py) : Py := if a.truthy then a else b

/--
`make_merkle_proof` (`src/main.py` lines 70-85).  On a `LeafNode` argument the
attribute access `root_node.left` raises `AttributeError`.  On a `ParentNode`
whose left child is a leaf, the item's digest is compared against the two
children's digests (a one-element list holding the sibling digest, else
`None`); otherwise the search recurses into both children and, unless both
sides return `None`, yields `[lh or left.hash(), rh or right.hash()]`.
-/
def makeMerkleProof (item : Bytes) : Node → Except PyErr Py
  | .leaf _ => .error .attributeError
  | .parent l r =>
    match l with
    | .leaf c =>
      if h item = Node.hash (.leaf c) then .ok (.list [.str r.hash])
      else if h item = r.hash then .ok (.list [.str (Node.hash (.leaf c))])
      else .ok .none
    | .parent l1 r1 =>
      match makeMerkleProof item (.parent l1 r1) with
      | .error e => .error e
      | .ok lh =>
        match makeMerkleProof item r with
        | .error e => .error e
        | .ok rh =>
          if lh.isNone ∧ rh.isNone then .ok .none
          else .ok (.list [pyOr lh (.str (Node.hash (.parent l1 r1))),
                           pyOr rh (.str r.hash)])

/--
The inner `hash_item` of `validate_proof` (`src/main.py` lines 92-103).
A string is returned unchanged; a one-element list pairs its raw element with
`h(item)`; a longer list recurses on its first two elements; the empty list
raises `IndexError` at `i[0]`; any other value falls off the function and
yields Python `None`.  `sorted` raises `TypeError` whenever one operand of its
single comparison is not a string.
-/
def hashItem (item : Bytes) : Py → Except PyErr (Option String)
  | .str s => .ok (some s)
  | .list [] => .error .indexError
  | .list [x] =>
    match x with
    | .str s => .ok (some (combine s (h item)))
    | _ => .error .typeError
  | .list (a :: b :: _) =>
    match hashItem item a with
    | .error e => .error e
    | .ok left =>
      match hashItem item b with
      | .error e => .error e
      | .ok right =>
        match left, right with
        | some x, some y => .ok (some (combine x y))
        | _, _ => .error .typeError
  | _ => .ok Option.none

/--
`validate_proof` (`src/main.py` lines 88-105): `False` when the proof is
`None`, otherwise the comparison of `root_hash` with `hash_item(proof)`
(comparing a string against Python `None` is `False`).
-/
def validateProof (item : Bytes) (rootHash : String) (proof : Py) : Except PyErr Bool :=
  if proof.isNone then .ok false
  else
    match hashItem item proof with
    | .error e => .error e
    | .ok (some s) => .ok (rootHash == s)
    | .ok Option.none => .ok false

/--
One level-halving pass of the `while` loop: the nodes of the next level, in the
order the loop produces them (pairs are popped off the *end* of the current
level, the popped-first node becoming the parent's left child).
-/
def chunkPairs : List Node → List Node
  | a :: b :: rest => Node.parent a b :: chunkPairs rest
  | _ => []

/-- The next level built from a full current level. -/
def pairStep (l : List Node) : List Node := chunkPairs l.reverse

/-- Fold `k` level-halving passes and return the sole remaining node. -/
def buildBalanced : Nat → List Node → Option Node
  | 0, l => l.head?
  | k + 1, l => buildBalanced k (pairStep l)

/--
Trees on which the recursive search of `make_merkle_proof` is defined and
complete: every internal node has either two leaf children or two searchable
internal children.  (Every tree the builder returns for two or more items is
of this shape.)
-/
inductive SearchOK : Node → Prop
  | pair (c c' : Option Bytes) : SearchOK (.parent (.leaf c) (.leaf c'))
  | node {l r : Node} : SearchOK l → SearchOK r → SearchOK (.parent l r)

/-- Perfect trees: all leaves at depth exactly `d`. -/
inductive Uniform : Nat → Node → Prop
  | leaf (c : Option Bytes) : Uniform 0 (.leaf c)
  | parent {d : Nat} {l r : Node} : Uniform d l → Uniform d r →
      Uniform (d + 1) (.parent l r)

/-- Whether a Python value is a string. -/
def isStr : Py → Bool
  | .str _ => true
  | _ => false

/--
A proof value carrying exactly one matching path: a single sibling digest at
the bottom, and at each higher level one slot with the recursive path and the
other slot a plain digest string.
-/
def singlePath : Py → Bool
  | .list [.str _] => true
  | .list [a, b] => (isStr a && singlePath b) || (singlePath a && isStr b)
  | _ => false

/--
The digest `d` occurs among the leaf digests of at most one child's subtree at
every internal node of the tree.
-/
inductive NoSplit (d : String) : Node → Prop
  | leaf (c : Option Bytes) : NoSplit d (.leaf c)
  | parent {l r : Node} : ¬(d ∈ l.leafHashes ∧ d ∈ r.leafHashes) →
      NoSplit d l → NoSplit d r → NoSplit d (.parent l r)

/-! ### Basic lemmas about the embedded operations -/

theorem combine_comm (a b : String) : combine a b = combine b a := by
  simp only [combine]
  rcases lt_trichotomy a b with hab | heq | hba
  · rw [if_neg (asymm hab), if_pos hab]
  · rw [heq]
  · rw [if_pos hba, if_neg (asymm hba)]

theorem hash_parent (l r : Node) : (Node.parent l r).hash = combine l.hash r.hash := rfl

theorem leafHashes_parent (l r : Node) :
    (Node.parent l r).leafHashes = l.leafHashes ++ r.leafHashes := rfl

theorem leafHashes_leaf (c : Option Bytes) :
    (Node.leaf c).leafHashes = [Node.hash (.leaf c)] := rfl

theorem isNone_iff (p : Py) : p.isNone = true ↔ p = .none := by
  cases p <;> simp [Py.isNone]

theorem makeMerkleProof_leaf (item : Bytes) (c : Option Bytes) :
    makeMerkleProof item (.leaf c) = .error .attributeError := rfl

theorem makeMerkleProof_parent_leaf (item : Bytes) (c : Option Bytes) (r : Node) :
    makeMerkleProof item (.parent (.leaf c) r) =
      (if h item = Node.hash (.leaf c) then .ok (.list [.str r.hash])
       else if h item = r.hash then .ok (.list [.str (Node.hash (.leaf c))])
       else .ok .none) := rfl

theorem makeMerkleProof_parent_parent (item : Bytes) (l1 r1 r : Node) :
    makeMerkleProof item (.parent (.parent l1 r1) r) =
      (match makeMerkleProof item (.parent l1 r1) with
       | .error e => .error e
       | .ok lh =>
         match makeMerkleProof item r with
         | .error e => .error e
         | .ok rh =>
           if lh.isNone ∧ rh.isNone then .ok .none
           else .ok (.list [pyOr lh (.str (Node.hash (.parent l1 r1))),
                            pyOr rh (.str r.hash)])) := rfl

theorem makeMerkleProof_pp_errL (item : Bytes) (l1 r1 r : Node) {e : PyErr}
    (hcl : makeMerkleProof item (.parent l1 r1) = .error e) :
    makeMerkleProof item (.parent (.parent l1 r1) r) = .error e := by
  rw [makeMerkleProof_parent_parent, hcl]

theorem makeMerkleProof_pp_errR (item : Bytes) (l1 r1 r : Node) {lh : Py} {e : PyErr}
    (hcl : makeMerkleProof item (.parent l1 r1) = .ok lh)
    (hcr : makeMerkleProof item r = .error e) :
    makeMerkleProof item (.parent (.parent l1 r1) r) = .error e := by
  rw [makeMerkleProof_parent_parent, hcl, hcr]

theorem makeMerkleProof_pp_ok (item : Bytes) (l1 r1 r : Node) {lh rh : Py}
    (hcl : makeMerkleProof item (.parent l1 r1) = .ok lh)
    (hcr : makeMerkleProof item r = .ok rh) :
    makeMerkleProof item (.parent (.parent l1 r1) r) =
      (if lh.isNone ∧ rh.isNone then .ok .none
       else .ok (.list [pyOr lh (.str (Node.hash (.parent l1 r1))),
                        pyOr rh (.str r.hash)])) := by
  rw [makeMerkleProof_parent_parent, hcl, hcr]

theorem hashItem_str (item : Bytes) (s : String) :
    hashItem item (.str s) = .ok (some s) := rfl

theorem hashItem_single_str (item : Bytes) (s : String) :
    hashItem item (.list [.str s]) = .ok (some (combine s (h item))) := rfl

theorem hashItem_pair (item : Bytes) (a b : Py) (t : List Py) :
    hashItem item (.list (a :: b :: t)) =
      (match hashItem item a with
       | .error e => .error e
       | .ok left =>
         match hashItem item b with
         | .error e => .error e
         | .ok right =>
           match left, right with
           | some x, some y => .ok (some (combine x y))
           | _, _ => .error .typeError) := rfl

/-- Every value `make_merkle_proof` returns is `None` or a non-empty list. -/
theorem proof_shape (item : Bytes) :
    ∀ n p, makeMerkleProof item n = .ok p → p = .none ∨ ∃ a t, p = .list (a :: t) := by
  intro n
  induction n with
  | leaf c =>
    intro p hp
    rw [makeMerkleProof_leaf] at hp
    cases hp
  | parent l r ihl ihr =>
    intro p hp
    cases l with
    | leaf c =>
      rw [makeMerkleProof_parent_leaf] at hp
      split at hp
      · cases hp; exact Or.inr ⟨_, _, rfl⟩
      · split at hp
        · cases hp; exact Or.inr ⟨_, _, rfl⟩
        · cases hp; exact Or.inl rfl
    | parent l1 r1 =>
      cases hcl : makeMerkleProof item (.parent l1 r1) with
      | error e =>
        rw [makeMerkleProof_pp_errL item l1 r1 r hcl] at hp
        cases hp
      | ok lh =>
        cases hcr : makeMerkleProof item r with
        | error e =>
          rw [makeMerkleProof_pp_errR item l1 r1 r hcl hcr] at hp
          cases hp
        | ok rh =>
          rw [makeMerkleProof_pp_ok item l1 r1 r hcl hcr] at hp
          by_cases hc : lh.isNone ∧ rh.isNone
          · rw [if_pos hc] at hp; cases hp; exact Or.inl rfl
          · rw [if_neg hc] at hp; cases hp; exact Or.inr ⟨_, _, rfl⟩

theorem searchOK_isParent {n : Node} (hs : SearchOK n) : ∃ a b, n = .parent a b := by
  cases hs with
  | pair c c' => exact ⟨_, _, rfl⟩
  | node hl hr => exact ⟨_, _, rfl⟩

/-- On a searchable tree the proof search never raises. -/
theorem makeMerkleProof_total (item : Bytes) {n : Node} (hs : SearchOK n) :
    ∃ p, makeMerkleProof item n = .ok p := by
  induction hs with
  | pair c c' =>
    rw [makeMerkleProof_parent_leaf]
    by_cases h1 : h item = Node.hash (.leaf c)
    · rw [if_pos h1]; exact ⟨_, rfl⟩
    · rw [if_neg h1]
      by_cases h2 : h item = Node.hash (.leaf c')
      · rw [if_pos h2]; exact ⟨_, rfl⟩
      · rw [if_neg h2]; exact ⟨_, rfl⟩
  | node hl hr ihl ihr =>
    obtain ⟨l1, r1, rfl⟩ := searchOK_isParent hl
    obtain ⟨p1, hp1⟩ := ihl
    obtain ⟨p2, hp2⟩ := ihr
    rw [makeMerkleProof_pp_ok item l1 r1 _ hp1 hp2]
    by_cases hc : p1.isNone ∧ p2.isNone
    · rw [if_pos hc]; exact ⟨_, rfl⟩
    · rw [if_neg hc]; exact ⟨_, rfl⟩

/-- A successful search means the item's digest occurs among the leaf digests. -/
theorem makeMerkleProof_mem (item : Bytes) {n : Node} (hs : SearchOK n) :
    ∀ p, makeMerkleProof item n = .ok p → p ≠ .none → h item ∈ n.leafHashes := by
  induction hs with
  | pair c c' =>
    intro p hp hne
    rw [makeMerkleProof_parent_leaf] at hp
    rw [leafHashes_parent, leafHashes_leaf, leafHashes_leaf]
    split at hp
    · next heq => simp [heq]
    · split at hp
      · next heq => simp [heq]
      · cases hp; exact absurd rfl hne
  | @node l r hl hr ihl ihr =>
    intro p hp hne
    obtain ⟨l1, r1, rfl⟩ := searchOK_isParent hl
    cases hcl : makeMerkleProof item (.parent l1 r1) with
    | error e => rw [makeMerkleProof_pp_errL item l1 r1 r hcl] at hp; cases hp
    | ok lh =>
      cases hcr : makeMerkleProof item r with
      | error e => rw [makeMerkleProof_pp_errR item l1 r1 r hcl hcr] at hp; cases hp
      | ok rh =>
        rw [makeMerkleProof_pp_ok item l1 r1 r hcl hcr] at hp
        by_cases hc : lh.isNone ∧ rh.isNone
        · rw [if_pos hc] at hp; cases hp; exact absurd rfl hne
        · rw [leafHashes_parent]
          by_cases hn : lh = .none
          · have hrn : rh ≠ .none := by
              intro hr0
              exact hc ⟨(isNone_iff lh).mpr hn, (isNone_iff rh).mpr hr0⟩
            exact List.mem_append_right _ (ihr rh hcr hrn)
          · exact List.mem_append_left _ (ihl lh hcl hn)

/-- If the item's digest occurs among the leaf digests, the search finds a proof. -/
theorem makeMerkleProof_found (item : Bytes) {n : Node} (hs : SearchOK n) :
    h item ∈ n.leafHashes → ∃ p, makeMerkleProof item n = .ok p ∧ p ≠ .none := by
  induction hs with
  | pair c c' =>
    intro hmem
    rw [makeMerkleProof_parent_leaf]
    by_cases h1 : h item = Node.hash (.leaf c)
    · rw [if_pos h1]
      exact ⟨_, rfl, fun hc => Py.noConfusion hc⟩
    · have h2 : h item = Node.hash (.leaf c') := by
        rw [leafHashes_parent, leafHashes_leaf, leafHashes_leaf] at hmem
        simp only [List.mem_append, List.mem_singleton] at hmem
        tauto
      rw [if_neg h1, if_pos h2]
      exact ⟨_, rfl, fun hc => Py.noConfusion hc⟩
  | node hl hr ihl ihr =>
    intro hmem
    obtain ⟨l1, r1, rfl⟩ := searchOK_isParent hl
    rw [leafHashes_parent] at hmem
    rcases List.mem_append.mp hmem with hm | hm
    · obtain ⟨p1, hp1, hne1⟩ := ihl hm
      obtain ⟨p2, hp2⟩ := makeMerkleProof_total item hr
      rw [makeMerkleProof_pp_ok item l1 r1 _ hp1 hp2,
        if_neg (fun hc => hne1 ((isNone_iff p1).mp hc.1))]
      exact ⟨_, rfl, fun hc => Py.noConfusion hc⟩
    · obtain ⟨p2, hp2, hne2⟩ := ihr hm
      obtain ⟨p1, hp1⟩ := makeMerkleProof_total item hl
      rw [makeMerkleProof_pp_ok item l1 r1 _ hp1 hp2,
        if_neg (fun hc => hne2 ((isNone_iff p2).mp hc.2))]
      exact ⟨_, rfl, fun hc => Py.noConfusion hc⟩

/-- If the item's digest occurs at no leaf, the search returns `None`. -/
theorem makeMerkleProof_notFound (item : Bytes) {n : Node} (hs : SearchOK n) :
    h item ∉ n.leafHashes → makeMerkleProof item n = .ok .none := by
  induction hs with
  | pair c c' =>
    intro hmem
    rw [leafHashes_parent, leafHashes_leaf, leafHashes_leaf] at hmem
    simp only [List.mem_append, List.mem_singleton, not_or] at hmem
    rw [makeMerkleProof_parent_leaf, if_neg hmem.1, if_neg hmem.2]
  | node hl hr ihl ihr =>
    intro hmem
    obtain ⟨l1, r1, rfl⟩ := searchOK_isParent hl
    rw [leafHashes_parent] at hmem
    simp only [List.mem_append, not_or] at hmem
    rw [makeMerkleProof_pp_ok item l1 r1 _ (ihl hmem.1) (ihr hmem.2),
      if_pos ⟨rfl, rfl⟩]

/-- `lh or subtree.hash()` always recomputes, under `hash_item`, to the subtree's digest. -/
theorem pyOr_hash (item : Bytes) {sub : Node} {lh : Py}
    (hsub : makeMerkleProof item sub = .ok lh)
    (ih : lh ≠ .none → hashItem item lh = .ok (some sub.hash)) :
    hashItem item (pyOr lh (.str sub.hash)) = .ok (some sub.hash) := by
  by_cases hn : lh = .none
  · subst hn
    rw [show pyOr .none (.str sub.hash) = .str sub.hash from rfl]
    exact hashItem_str item sub.hash
  · rcases proof_shape item sub lh hsub with rfl | ⟨a, t, rfl⟩
    · exact absurd rfl hn
    · rw [show pyOr (.list (a :: t)) (.str sub.hash) = .list (a :: t) from rfl]
      exact ih hn

/-- Any non-`None` proof the search returns recomputes, under `hash_item`,
to the digest of the tree it was generated from. -/
theorem hashItem_reconstruct (item : Bytes) :
    ∀ n p, makeMerkleProof item n = .ok p → p ≠ .none →
      hashItem item p = .ok (some n.hash) := by
  intro n
  induction n with
  | leaf c =>
    intro p hp _
    rw [makeMerkleProof_leaf] at hp
    cases hp
  | parent l r ihl ihr =>
    intro p hp hne
    cases l with
    | leaf c =>
      rw [makeMerkleProof_parent_leaf] at hp
      split at hp
      · next heq =>
        cases hp
        rw [hashItem_single_str, heq, combine_comm]
        rfl
      · split at hp
        · next heq =>
          cases hp
          rw [hashItem_single_str, heq]
          rfl
        · cases hp; exact absurd rfl hne
    | parent l1 r1 =>
      cases hcl : makeMerkleProof item (.parent l1 r1) with
      | error e => rw [makeMerkleProof_pp_errL item l1 r1 r hcl] at hp; cases hp
      | ok lh =>
        cases hcr : makeMerkleProof item r with
        | error e => rw [makeMerkleProof_pp_errR item l1 r1 r hcl hcr] at hp; cases hp
        | ok rh =>
          rw [makeMerkleProof_pp_ok item l1 r1 r hcl hcr] at hp
          by_cases hc : lh.isNone ∧ rh.isNone
          · rw [if_pos hc] at hp; cases hp; exact absurd rfl hne
          · rw [if_neg hc] at hp
            cases hp
            rw [hashItem_pair,
              pyOr_hash item hcl (fun hn => ihl lh hcl hn),
              pyOr_hash item hcr (fun hn => ihr rh hcr hn)]
            rfl

/-! ### The `while` loop builds a balanced fold of the padded level -/

theorem buildLoop_succ (fuel : Nat) (curr next : List Node) :
    buildLoop (fuel + 1) curr next =
      (if curr.length = 1 ∧ next = [] then curr.head?
       else match popEnd curr with
         | none => none
         | some (l, c1) =>
           match popEnd c1 with
           | none => none
           | some (r, c2) =>
             let next1 := next ++ [Node.parent l r]
             if c2 = [] then buildLoop fuel next1 [] else buildLoop fuel c2 next1) := rfl

theorem chunkPairs_cons (a b : Node) (t : List Node) :
    chunkPairs (a :: b :: t) = Node.parent a b :: chunkPairs t := rfl

theorem popEnd_concat (t : List Node) (x : Node) : popEnd (t ++ [x]) = some (x, t) := by
  simp [popEnd]

theorem pairStep_concat (l : List Node) (y x : Node) :
    pairStep (l ++ [y, x]) = Node.parent x y :: pairStep l := by
  simp only [pairStep]
  rw [show (l ++ [y, x]).reverse = x :: y :: l.reverse by simp]
  rfl

theorem chunkPairs_length : ∀ l : List Node, (chunkPairs l).length = l.length / 2
  | [] => by simp [chunkPairs]
  | [_] => by simp [chunkPairs]
  | _ :: _ :: t => by
    rw [chunkPairs_cons]
    simp only [List.length_cons, chunkPairs_length t]
    omega

theorem pairStep_length (l : List Node) : (pairStep l).length = l.length / 2 := by
  rw [pairStep, chunkPairs_length, List.length_reverse]

theorem exists_concat_pair {l : List Node} (hl : 2 ≤ l.length) :
    ∃ t y x, l = t ++ [y, x] := by
  cases hrev : l.reverse with
  | nil => rw [← List.length_reverse, hrev] at hl; simp at hl
  | cons x t1 =>
    cases t1 with
    | nil => rw [← List.length_reverse, hrev] at hl; simp at hl
    | cons y t =>
      refine ⟨t.reverse, y, x, ?_⟩
      have hh : l.reverse.reverse = ((x :: y :: t) : List Node).reverse := by rw [hrev]
      rw [List.reverse_reverse] at hh
      rw [hh]
      simp

theorem buildLoop_step (fuel : Nat) (t : List Node) (y x : Node) (next : List Node)
    (hne : t ≠ []) :
    buildLoop (fuel + 1) (t ++ [y, x]) next = buildLoop fuel t (next ++ [Node.parent x y]) := by
  have hcond : ¬((t ++ [y, x]).length = 1 ∧ next = []) := by
    simp only [List.length_append, List.length_cons, List.length_nil]
    omega
  have hp1 : popEnd (t ++ [y, x]) = some (x, t ++ [y]) := by
    rw [show t ++ [y, x] = (t ++ [y]) ++ [x] by simp, popEnd_concat]
  rw [buildLoop_succ, if_neg hcond, hp1]
  simp only [popEnd_concat]
  rw [if_neg hne]

theorem buildLoop_level : ∀ (j fuel : Nat) (curr next : List Node),
    curr.length = 2 * (j + 1) →
    buildLoop (fuel + (j + 1)) curr next = buildLoop fuel (next ++ pairStep curr) [] := by
  intro j
  induction j with
  | zero =>
    intro fuel curr next hlen
    obtain ⟨t, y, x, rfl⟩ := exists_concat_pair (l := curr) (by omega)
    have ht : t = [] := by
      simp only [List.length_append, List.length_cons, List.length_nil] at hlen
      exact List.eq_nil_of_length_eq_zero (by omega)
    subst ht
    rfl
  | succ j ih =>
    intro fuel curr next hlen
    obtain ⟨t, y, x, rfl⟩ := exists_concat_pair (l := curr) (by omega)
    have htl : t.length = 2 * (j + 1) := by
      simp only [List.length_append, List.length_cons, List.length_nil] at hlen
      omega
    have htne : t ≠ [] := by
      intro h0
      rw [h0] at htl
      simp at htl
    rw [show fuel + (j + 1 + 1) = (fuel + (j + 1)) + 1 from rfl,
      buildLoop_step (fuel + (j + 1)) t y x next htne,
      ih fuel t (next ++ [Node.parent x y]) htl,
      pairStep_concat, List.append_assoc]
    rfl

theorem buildLoop_balanced : ∀ (k fuel : Nat) (l : List Node), l.length = 2 ^ k →
    buildLoop (fuel + 2 ^ k) l [] = buildBalanced k l := by
  intro k
  induction k with
  | zero =>
    intro fuel l hlen
    cases l with
    | nil => simp at hlen
    | cons a t =>
      cases t with
      | nil => rfl
      | cons b t2 => simp at hlen
  | succ k ih =>
    intro fuel l hlen
    obtain ⟨j, hj⟩ : ∃ j, 2 ^ k = j + 1 :=
      ⟨2 ^ k - 1, by have := Nat.one_le_two_pow (n := k); omega⟩
    have hl2 : l.length = 2 * (j + 1) := by
      rw [hlen, pow_succ]
      omega
    have hfuel : fuel + 2 ^ (k + 1) = (fuel + 2 ^ k) + (j + 1) := by
      rw [pow_succ]
      omega
    rw [hfuel, buildLoop_level j (fuel + 2 ^ k) l [] hl2]
    simp only [List.nil_append]
    rw [ih fuel (pairStep l) (by rw [pairStep_length, hlen, pow_succ]; omega)]
    rfl

/-! ### Level passes preserve leaf digests and uniform depth -/

theorem chunkPairs_mem : ∀ (l : List Node), l.length % 2 = 0 →
    ∀ x, x ∈ (chunkPairs l).flatMap Node.leafHashes ↔ x ∈ l.flatMap Node.leafHashes
  | [] => by intro _ x; rfl
  | [_] => by intro hev; simp at hev
  | a :: b :: t => by
    intro hev x
    have ih := chunkPairs_mem t (by simp only [List.length_cons] at hev; omega) x
    rw [chunkPairs_cons]
    simp only [List.flatMap_cons, List.mem_append, leafHashes_parent] at *
    rw [or_assoc, ih]

theorem pairStep_mem (l : List Node) (hev : l.length % 2 = 0) (x : String) :
    x ∈ (pairStep l).flatMap Node.leafHashes ↔ x ∈ l.flatMap Node.leafHashes := by
  rw [pairStep, chunkPairs_mem l.reverse (by simpa using hev) x]
  constructor
  · intro hx
    obtain ⟨m, hm, hxm⟩ := List.mem_flatMap.mp hx
    exact List.mem_flatMap.mpr ⟨m, List.mem_reverse.mp hm, hxm⟩
  · intro hx
    obtain ⟨m, hm, hxm⟩ := List.mem_flatMap.mp hx
    exact List.mem_flatMap.mpr ⟨m, List.mem_reverse.mpr hm, hxm⟩

theorem chunkPairs_uniform : ∀ (l : List Node) (d : Nat), (∀ m ∈ l, Uniform d m) →
    ∀ m ∈ chunkPairs l, Uniform (d + 1) m
  | [] => by intro _ _ m hm; simp [chunkPairs] at hm
  | [_] => by intro _ _ m hm; simp [chunkPairs] at hm
  | a :: b :: t => by
    intro d hall m hm
    rw [chunkPairs_cons] at hm
    rcases List.mem_cons.mp hm with rfl | hm2
    · exact Uniform.parent (hall a (by simp)) (hall b (by simp))
    · exact chunkPairs_uniform t d (fun m2 hm3 => hall m2 (by simp [hm3])) m hm2

theorem pairStep_uniform (l : List Node) (d : Nat) (hall : ∀ m ∈ l, Uniform d m) :
    ∀ m ∈ pairStep l, Uniform (d + 1) m :=
  chunkPairs_uniform l.reverse d (fun m hm => hall m (List.mem_reverse.mp hm))

theorem buildBalanced_some (k : Nat) : ∀ (l : List Node), l.length = 2 ^ k →
    ∃ n, buildBalanced k l = some n := by
  induction k with
  | zero =>
    intro l hlen
    cases l with
    | nil => simp at hlen
    | cons a t =>
      cases t with
      | nil => exact ⟨a, rfl⟩
      | cons b t2 => simp at hlen
  | succ k ih =>
    intro l hlen
    exact ih (pairStep l) (by rw [pairStep_length, hlen, pow_succ]; omega)

theorem buildBalanced_mem (k : Nat) : ∀ (l : List Node) (root : Node), l.length = 2 ^ k →
    buildBalanced k l = some root →
    ∀ x, x ∈ root.leafHashes ↔ x ∈ l.flatMap Node.leafHashes := by
  induction k with
  | zero =>
    intro l root hlen hb x
    cases l with
    | nil => simp at hlen
    | cons a t =>
      cases t with
      | nil =>
        cases hb
        simp
      | cons b t2 => simp at hlen
  | succ k ih =>
    intro l root hlen hb x
    have hplen : (pairStep l).length = 2 ^ k := by
      rw [pairStep_length, hlen, pow_succ]
      omega
    have hev : l.length % 2 = 0 := by
      rw [hlen, pow_succ]
      omega
    exact (ih (pairStep l) root hplen hb x).trans (pairStep_mem l hev x)

theorem buildBalanced_uniform (k : Nat) : ∀ (d : Nat) (l : List Node) (root : Node),
    (∀ m ∈ l, Uniform d m) → l.length = 2 ^ k → buildBalanced k l = some root →
    Uniform (d + k) root := by
  induction k with
  | zero =>
    intro d l root hall hlen hb
    cases l with
    | nil => simp at hlen
    | cons a t =>
      cases t with
      | nil =>
        cases hb
        exact hall root (by simp)
      | cons b t2 => simp at hlen
  | succ k ih =>
    intro d l root hall hlen hb
    have hplen : (pairStep l).length = 2 ^ k := by
      rw [pairStep_length, hlen, pow_succ]
      omega
    have := ih (d + 1) (pairStep l) root (pairStep_uniform l d hall) hplen hb
    rw [show d + (k + 1) = (d + 1) + k by omega]
    exact this

theorem uniform_searchOK : ∀ (d : Nat) {n : Node}, Uniform (d + 1) n → SearchOK n := by
  intro d
  induction d with
  | zero =>
    intro n hu
    cases hu with
    | parent hl hr =>
      cases hl
      cases hr
      exact SearchOK.pair _ _
  | succ d ih =>
    intro n hu
    cases hu with
    | parent hl hr => exact SearchOK.node (ih hl) (ih hr)

/-! ### The fuelled logarithms agree with Mathlib's `Nat.log` / `Nat.clog` -/

theorem log2F_succ (f n : Nat) :
    log2F (f + 1) n = if n ≤ 1 then 0 else log2F f (n / 2) + 1 := rfl

theorem clog2F_succ (f n : Nat) :
    clog2F (f + 1) n = if n ≤ 1 then 0 else clog2F f ((n + 1) / 2) + 1 := rfl

theorem log2F_eq : ∀ (f n : Nat), n ≤ f → log2F f n = Nat.log 2 n := by
  intro f
  induction f with
  | zero =>
    intro n hn
    have : n = 0 := by omega
    subst this
    exact (Nat.log_zero_right 2).symm
  | succ f ih =>
    intro n hn
    rw [log2F_succ]
    by_cases h1 : n ≤ 1
    · rw [if_pos h1]
      match n, h1 with
      | 0, _ => exact (Nat.log_zero_right 2).symm
      | 1, _ => exact (Nat.log_one_right 2).symm
    · rw [if_neg h1]
      have hrec : n / 2 ≤ f := by omega
      rw [ih (n / 2) hrec, Nat.log_div_base]
      have hpos : 0 < Nat.log 2 n := Nat.log_pos (by omega) (by omega)
      omega

theorem clog2F_eq : ∀ (f n : Nat), n ≤ f → clog2F f n = Nat.clog 2 n := by
  intro f
  induction f with
  | zero =>
    intro n hn
    have : n = 0 := by omega
    subst this
    exact (Nat.clog_zero_right 2).symm
  | succ f ih =>
    intro n hn
    rw [clog2F_succ]
    by_cases h1 : n ≤ 1
    · rw [if_pos h1]
      exact (Nat.clog_of_right_le_one h1 2).symm
    · rw [if_neg h1]
      have hrec : (n + 1) / 2 ≤ f := by omega
      have h2 : Nat.clog 2 n = Nat.clog 2 ((n + 1) / 2) + 1 := by
        have h3 := Nat.clog_of_two_le (b := 2) (n := n) (by omega) (by omega)
        simpa using h3
      rw [ih ((n + 1) / 2) hrec, h2]

theorem log2_eq (n : Nat) : log2 n = Nat.log 2 n := log2F_eq n n le_rfl

theorem clog2_eq (n : Nat) : clog2 n = Nat.clog 2 n := clog2F_eq n n le_rfl

theorem isPow2_iff (n : Nat) : isPow2 n = true ↔ ∃ k, n = 2 ^ k := by
  constructor
  · intro hp
    exact ⟨log2 n, by simpa [isPow2] using hp⟩
  · rintro ⟨k, rfl⟩
    simp [isPow2, log2_eq, Nat.log_pow (by norm_num : (1 : ℕ) < 2)]

/-! ### The padded level -/

theorem padLevel_length (l : List Node) :
    ∃ k, (padLevel l).length = 2 ^ k ∧ l.length ≤ 2 ^ k := by
  by_cases hp : isPow2 l.length
  · obtain ⟨k, hk⟩ := (isPow2_iff _).mp hp
    refine ⟨k, ?_, le_of_eq hk⟩
    rw [padLevel, if_pos hp, hk]
  · refine ⟨clog2 l.length, ?_, ?_⟩
    · rw [padLevel, if_neg hp]
      have hle : l.length ≤ 2 ^ clog2 l.length := by
        rw [clog2_eq]
        exact Nat.le_pow_clog (by norm_num) _
      simp only [List.length_append, List.length_replicate]
      omega
    · rw [clog2_eq]
      exact Nat.le_pow_clog (by norm_num) _

theorem padLevel_uniform (l : List Node) (hl : ∀ m ∈ l, Uniform 0 m) :
    ∀ m ∈ padLevel l, Uniform 0 m := by
  intro m hm
  rw [padLevel] at hm
  by_cases hp : isPow2 l.length
  · rw [if_pos hp] at hm
    exact hl m hm
  · rw [if_neg hp] at hm
    rcases List.mem_append.mp hm with hm2 | hm2
    · exact hl m hm2
    · rw [List.eq_of_mem_replicate hm2]
      exact Uniform.leaf _

theorem mem_padLevel_flatMap_of_mem (items : List Bytes) {it : Bytes} (hit : it ∈ items) :
    h it ∈ (padLevel (items.map (fun i => Node.leaf (some i)))).flatMap Node.leafHashes := by
  have hmem : Node.leaf (some it) ∈ padLevel (items.map (fun i => Node.leaf (some i))) := by
    have hmap : Node.leaf (some it) ∈ items.map (fun i => Node.leaf (some i)) :=
      List.mem_map.mpr ⟨it, hit, rfl⟩
    rw [padLevel]
    by_cases hp : isPow2 (items.map (fun i => Node.leaf (some i))).length
    · rw [if_pos hp]
      exact hmap
    · rw [if_neg hp]
      exact List.mem_append_left _ hmap
  exact List.mem_flatMap.mpr ⟨_, hmem, by rw [leafHashes_leaf]; exact List.mem_singleton.mpr rfl⟩

theorem not_mem_padLevel_flatMap (items : List Bytes) {d : String}
    (hno : ∀ i ∈ items, d ≠ h i) (hemp : d ≠ h (utf8Bytes "empty")) :
    d ∉ (padLevel (items.map (fun i => Node.leaf (some i)))).flatMap Node.leafHashes := by
  intro hd
  obtain ⟨m, hm, hdm⟩ := List.mem_flatMap.mp hd
  have hshape : (∃ i ∈ items, m = .leaf (some i)) ∨ m = .leaf Option.none := by
    rw [padLevel] at hm
    by_cases hp : isPow2 (items.map (fun i => Node.leaf (some i))).length
    · rw [if_pos hp] at hm
      obtain ⟨i, hi, hrfl⟩ := List.mem_map.mp hm
      exact Or.inl ⟨i, hi, hrfl.symm⟩
    · rw [if_neg hp] at hm
      rcases List.mem_append.mp hm with hm2 | hm2
      · obtain ⟨i, hi, hrfl⟩ := List.mem_map.mp hm2
        exact Or.inl ⟨i, hi, hrfl.symm⟩
      · exact Or.inr (List.eq_of_mem_replicate hm2)
  rcases hshape with ⟨i, hi, rfl⟩ | rfl
  · rw [leafHashes_leaf] at hdm
    exact hno i hi (List.mem_singleton.mp hdm)
  · rw [leafHashes_leaf] at hdm
    exact hemp (List.mem_singleton.mp hdm)

/-! ### What `make_merkle_tree` returns -/

theorem makeMerkleTree_nil : makeMerkleTree [] = some (.str (Node.hash (.leaf none))) := rfl

theorem makeMerkleTree_single (i : Bytes) :
    makeMerkleTree [i] = some (.node (.leaf (some i))) := rfl

/--
For two or more items `make_merkle_tree` returns a searchable tree whose leaf
digests are exactly those of the padded leaf level.
-/
theorem makeMerkleTree_node (items : List Bytes) (hlen : 2 ≤ items.length) :
    ∃ t, makeMerkleTree items = some (.node t) ∧ SearchOK t ∧
      (∀ x, x ∈ t.leafHashes ↔
        x ∈ (padLevel (items.map (fun i => Node.leaf (some i)))).flatMap Node.leafHashes) := by
  obtain ⟨k, hk, hle⟩ := padLevel_length (items.map (fun i => Node.leaf (some i)))
  rw [List.length_map] at hle
  have hk1 : 1 ≤ k := by
    by_contra h0
    have hkk : k = 0 := by omega
    rw [hkk, pow_zero] at hle
    omega
  obtain ⟨root, hroot⟩ :=
    buildBalanced_some k (padLevel (items.map (fun i => Node.leaf (some i)))) hk
  refine ⟨root, ?_, ?_, ?_⟩
  · rw [makeMerkleTree, if_neg (by omega)]
    have hbl : buildLoop ((padLevel (items.map (fun i => Node.leaf (some i)))).length + 1)
        (padLevel (items.map (fun i => Node.leaf (some i)))) [] = some root := by
      rw [hk, show 2 ^ k + 1 = 1 + 2 ^ k by omega,
        buildLoop_balanced k 1 (padLevel (items.map (fun i => Node.leaf (some i)))) hk, hroot]
    show Option.map BuildResult.node
      (buildLoop ((padLevel (items.map (fun i => Node.leaf (some i)))).length + 1)
        (padLevel (items.map (fun i => Node.leaf (some i)))) []) = some (BuildResult.node root)
    rw [hbl]
    rfl
  · have hall : ∀ m ∈ items.map (fun i => Node.leaf (some i)), Uniform 0 m := by
      intro m hm
      obtain ⟨i, _, hrfl⟩ := List.mem_map.mp hm
      rw [← hrfl]
      exact Uniform.leaf _
    have hu := buildBalanced_uniform k 0 (padLevel (items.map (fun i => Node.leaf (some i))))
      root (padLevel_uniform _ hall) hk hroot
    obtain ⟨k1, rfl⟩ : ∃ k1, k = k1 + 1 := ⟨k - 1, by omega⟩
    exact uniform_searchOK k1 (by simpa using hu)
  · intro x
    exact buildBalanced_mem k _ root hk hroot x

/-! ### Helpers for `validate_proof` and proof shapes -/

theorem validateProof_not_none (item : Bytes) (rootHash : String) {proof : Py}
    (hne : proof ≠ .none) :
    validateProof item rootHash proof =
      (match hashItem item proof with
       | .error e => .error e
       | .ok (some s) => .ok (rootHash == s)
       | .ok Option.none => .ok false) := by
  unfold validateProof
  rw [if_neg (fun hc => hne ((isNone_iff proof).mp hc))]

theorem validateProof_congr (item : Bytes) (rootHash : String) {p q : Py}
    (hp : p ≠ .none) (hq : q ≠ .none) (hh : hashItem item p = hashItem item q) :
    validateProof item rootHash p = validateProof item rootHash q := by
  rw [validateProof_not_none item rootHash hp, validateProof_not_none item rootHash hq, hh]

theorem pyOr_none (b : Py) : pyOr .none b = b := rfl

theorem pyOr_cons (x : Py) (t : List Py) (b : Py) : pyOr (.list (x :: t)) b = .list (x :: t) := rfl

theorem singlePath_single (s : String) : singlePath (.list [.str s]) = true := rfl

theorem singlePath_pair (a b : Py) :
    singlePath (.list [a, b]) = ((isStr a && singlePath b) || (singlePath a && isStr b)) := by
  cases a <;> cases b <;> rfl

/-! ### The claims -/

/--
C1, as stated, is false: for a single-item collection the tree's root is a
`LeafNode`, and `make_merkle_proof` raises `AttributeError` on it (accessing
`root_node.left`), so the round trip cannot return `true`.  Concrete input:
`items = [b"a"]`, `item = b"a"`.
-/
theorem claim1_counterexample :
    ¬(∀ (items : List Bytes) (item : Bytes), items ≠ [] → item ∈ items →
      ∃ t p, makeMerkleTree items = some (.node t) ∧ makeMerkleProof item t = .ok p ∧
        validateProof item t.hash p = .ok true) := by
  intro hclaim
  obtain ⟨t, p, ht, hp, -⟩ := hclaim [[97]] [97] (by simp) (by simp)
  rw [makeMerkleTree_single] at ht
  injection ht with h1
  injection h1 with h2
  rw [← h2, makeMerkleProof_leaf] at hp
  cases hp

/--
C1 (amended to collections of at least two items): for every collection of at
least two byte strings and every member item, building the tree, generating a
proof and validating it against the tree's root digest yields `true`.
-/
theorem claim1_roundtrip (items : List Bytes) (item : Bytes)
    (hlen : 2 ≤ items.length) (hmem : item ∈ items) :
    ∃ t p, makeMerkleTree items = some (.node t) ∧ makeMerkleProof item t = .ok p ∧
      p ≠ .none ∧ validateProof item t.hash p = .ok true := by
  obtain ⟨t, hmk, hsok, hiff⟩ := makeMerkleTree_node items hlen
  have hm : h item ∈ t.leafHashes := (hiff _).mpr (mem_padLevel_flatMap_of_mem items hmem)
  obtain ⟨p, hp, hne⟩ := makeMerkleProof_found item hsok hm
  refine ⟨t, p, hmk, hp, hne, ?_⟩
  rw [validateProof_not_none item t.hash hne, hashItem_reconstruct item t p hp hne]
  simp

/-- Witness for the amended C1 at `items = [b"a", b"b"]`, `item = b"a"`. -/
theorem claim1_witness :
    2 ≤ ([[97], [98]] : List Bytes).length ∧ [97] ∈ ([[97], [98]] : List Bytes) ∧
    (∃ t p, makeMerkleTree [[97], [98]] = some (.node t) ∧
      makeMerkleProof [97] t = .ok p ∧ p ≠ .none ∧
      validateProof [97] t.hash p = .ok true) :=
  ⟨by decide, by decide, claim1_roundtrip [[97], [98]] [97] (by decide) (by decide)⟩

/--
C2, as stated, is false: the bare root digest string is accepted as a "proof"
for any item and any root, although `make_merkle_proof` never returns a bare
string (its results are `None` or non-empty lists).  Concrete input:
`item = b"a"`, `root = "ff"`, `proof = "ff"`.
-/
theorem claim2_counterexample :
    ¬(∀ (item : Bytes) (root : String) (proof : Py),
      (∀ t : Node, makeMerkleProof item t ≠ .ok proof) →
      validateProof item root proof = .ok false) := by
  intro hclaim
  have hforged : ∀ t : Node, makeMerkleProof [97] t ≠ .ok (.str "ff") := by
    intro t hc
    rcases proof_shape [97] t _ hc with heq | ⟨a, l, heq⟩ <;> cases heq
  have hval := hclaim [97] "ff" (.str "ff") hforged
  rw [show validateProof [97] "ff" (.str "ff") = .ok true from rfl] at hval
  injection hval with h1
  cases h1

/--
C2 (amended): `validate_proof` rejects exactly the proofs whose recomputed
digest differs from the claimed root; a forged value that still recomputes to
the root — such as the bare root digest string — is accepted.
-/
theorem claim2_reject_mismatch (item : Bytes) (root : String) (p : Py) (d : String)
    (hh : hashItem item p = .ok (some d)) (hne : d ≠ root) :
    validateProof item root p = .ok false := by
  have hpne : p ≠ .none := by
    intro h0
    subst h0
    injection hh with h1
    exact Option.noConfusion h1
  rw [validateProof_not_none item root hpne, hh]
  show Except.ok (root == d) = .ok false
  rw [beq_eq_false_iff_ne.mpr (fun he => hne he.symm)]

/-- Witness for the amended C2 at `item = b"a"`, `root = "bb"`, `proof = "aa"`. -/
theorem claim2_witness :
    hashItem [97] (.str "aa") = .ok (some "aa") ∧ "aa" ≠ "bb" ∧
    validateProof [97] "bb" (.str "aa") = .ok false :=
  ⟨rfl, by decide, claim2_reject_mismatch [97] "bb" (.str "aa") "aa" rfl (by decide)⟩

set_option maxRecDepth 40000 in
/--
C3, as stated, is false: padding leaves hash the sentinel `b"empty"`, so the
query `item = b"empty"` — which is not a member of `[b"a", b"b", b"c"]` —
matches the padding leaf and receives a proof instead of `None`.
-/
theorem claim3_counterexample :
    ¬(∀ (items : List Bytes) (item : Bytes) (t : Node), item ∉ items →
      makeMerkleTree items = some (.node t) → makeMerkleProof item t = .ok .none) := by
  intro hclaim
  have hmk : makeMerkleTree [[97], [98], [99]] = some (.node
      (.parent (.parent (.leaf (some [98])) (.leaf (some [97])))
               (.parent (.leaf Option.none) (.leaf (some [99]))))) := by decide
  have hnm : utf8Bytes "empty" ∉ ([[97], [98], [99]] : List Bytes) := by decide
  exact absurd (hclaim _ _ _ hnm hmk) (by decide)

/--
C3 (amended): for a collection of at least two items and a query item whose
digest differs from every member's digest and from the padding digest
`h(b"empty")`, `make_merkle_proof` on the built tree returns `None`.
-/
theorem claim3_none (items : List Bytes) (item : Bytes) (t : Node)
    (hlen : 2 ≤ items.length)
    (hno : ∀ i ∈ items, h item ≠ h i)
    (hemp : h item ≠ h (utf8Bytes "empty"))
    (hmk : makeMerkleTree items = some (.node t)) :
    makeMerkleProof item t = .ok .none := by
  obtain ⟨t2, hmk2, hsok, hiff⟩ := makeMerkleTree_node items hlen
  rw [hmk] at hmk2
  injection hmk2 with h1
  injection h1 with h2
  subst h2
  exact makeMerkleProof_notFound item hsok
    (fun hmem => not_mem_padLevel_flatMap items hno hemp ((hiff _).mp hmem))

/-- Witness for the amended C3 at `items = [b"a", b"b"]`, `item = b"c"`. -/
theorem claim3_witness :
    2 ≤ ([[97], [98]] : List Bytes).length ∧
    (∀ i ∈ ([[97], [98]] : List Bytes), h [99] ≠ h i) ∧
    h [99] ≠ h (utf8Bytes "empty") ∧
    makeMerkleTree [[97], [98]] =
      some (.node (.parent (.leaf (some [98])) (.leaf (some [97])))) ∧
    makeMerkleProof [99] (.parent (.leaf (some [98])) (.leaf (some [97]))) = .ok .none :=
  ⟨by decide, by decide, by decide, by decide,
   claim3_none [[97], [98]] [99] _ (by decide) (by decide) (by decide) (by decide)⟩

/--
C4: the internal-node digest is symmetric in the two children, because the two
children's digests are sorted before being concatenated with `":"` and hashed.
-/
theorem claim4_symmetric (a b : Node) :
    (Node.parent a b).hash = (Node.parent b a).hash := by
  rw [hash_parent, hash_parent, combine_comm]

/--
C5, as stated, is false: on the empty collection `make_merkle_tree` returns
the digest *string* `LeafNode(None).hash()` (line 49), not a leaf node.
-/
theorem claim5_counterexample :
    ¬(∃ n, makeMerkleTree [] = some (.node n) ∧
      Node.hash n = h (utf8Bytes "empty")) := by
  rintro ⟨n, hn, -⟩
  rw [makeMerkleTree_nil] at hn
  injection hn with h1
  cases h1

/--
C5 (amended): on the empty collection `make_merkle_tree` returns the digest
string `h(b"empty")` directly (not a node); that digest is the SHA-256 hash of
the sentinel byte string `b"empty"` (value pinned against an external SHA-256
computation).
-/
theorem claim5_empty_digest :
    makeMerkleTree [] = some (.str (h (utf8Bytes "empty"))) ∧
    h (utf8Bytes "empty") =
      "2e1cfa82b035c26cbbbdae632cea070514eb8b773f616aaeaf668e2f0be8f10d" :=
  ⟨rfl, by decide⟩

/--
C6, as stated, is false: for the single-item collection `[b"a"]` the returned
root is the leaf node itself, not an internal node.
-/
theorem claim6_counterexample :
    ¬(∀ (items : List Bytes) (t : Node), makeMerkleTree items = some (.node t) →
      ((∃ c, t = .leaf c) ↔ items = [])) := by
  intro hclaim
  have := (hclaim [[97]] (.leaf (some [97])) (makeMerkleTree_single [97])).mp ⟨_, rfl⟩
  cases this

/--
C6 (amended): whenever `make_merkle_tree` returns a node at all (it returns a
bare digest string for the empty collection), that node is a leaf if and only
if the collection had exactly one item.
-/
theorem claim6_leaf_iff (items : List Bytes) (t : Node)
    (hmk : makeMerkleTree items = some (.node t)) :
    (∃ c, t = .leaf c) ↔ items.length = 1 := by
  rcases items with - | ⟨a, items2⟩
  · rw [makeMerkleTree_nil] at hmk
    injection hmk with h1
    cases h1
  · rcases items2 with - | ⟨b, items3⟩
    · rw [makeMerkleTree_single] at hmk
      injection hmk with h1
      injection h1 with h2
      constructor
      · intro _
        rfl
      · intro _
        exact ⟨some a, h2.symm⟩
    · have hlen : 2 ≤ (a :: b :: items3).length := by
        simp only [List.length_cons]
        omega
      obtain ⟨t2, hmk2, hsok, -⟩ := makeMerkleTree_node _ hlen
      rw [hmk] at hmk2
      injection hmk2 with h1
      injection h1 with h2
      subst h2
      constructor
      · rintro ⟨c, rfl⟩
        obtain ⟨x, y, hxy⟩ := searchOK_isParent hsok
        cases hxy
      · intro hlen1
        simp only [List.length_cons] at hlen1
        omega

/-- Witness for the amended C6 at the single-item collection `[b"a"]`. -/
theorem claim6_witness :
    makeMerkleTree [[97]] = some (.node (.leaf (some [97]))) ∧
    ((∃ c, Node.leaf (some [97]) = Node.leaf c) ↔ ([[97]] : List Bytes).length = 1) :=
  ⟨by decide, claim6_leaf_iff [[97]] _ (makeMerkleTree_single [97])⟩

/--
C7: the leaf level built by `make_merkle_tree` for a non-empty collection has
`2 ^ ceil(log2 n)` entries; its first `n` entries are the items' leaves in
input order, the rest are padding leaves with absent content, and when `n` is
already a power of two (including `n = 1`) no padding is added.
-/
theorem claim7_padding (items : List Bytes) (_hne : items ≠ []) :
    (padLevel (items.map (fun i => Node.leaf (some i)))).length =
      2 ^ Nat.clog 2 items.length ∧
    (padLevel (items.map (fun i => Node.leaf (some i)))).take items.length =
      items.map (fun i => Node.leaf (some i)) ∧
    (padLevel (items.map (fun i => Node.leaf (some i)))).drop items.length =
      List.replicate (2 ^ Nat.clog 2 items.length - items.length)
        (Node.leaf Option.none) ∧
    ((∃ k, items.length = 2 ^ k) →
      padLevel (items.map (fun i => Node.leaf (some i))) =
        items.map (fun i => Node.leaf (some i))) := by
  have hmaplen : (items.map (fun i => Node.leaf (some i))).length = items.length :=
    List.length_map _ _
  by_cases hp : isPow2 (items.map (fun i => Node.leaf (some i))).length
  · obtain ⟨k, hk⟩ := (isPow2_iff _).mp hp
    rw [hmaplen] at hk
    have hclog : Nat.clog 2 items.length = k := by
      rw [hk]
      exact Nat.clog_pow 2 k (by norm_num)
    have hpad : padLevel (items.map (fun i => Node.leaf (some i))) =
        items.map (fun i => Node.leaf (some i)) := by
      rw [padLevel, if_pos hp]
    refine ⟨?_, ?_, ?_, fun _ => hpad⟩
    · rw [hpad, hmaplen, hclog, hk]
    · rw [hpad, ← hmaplen, List.take_length]
    · rw [hpad, hclog, ← hk, Nat.sub_self, List.replicate_zero, ← hmaplen,
        List.drop_length]
  · have hnp : ¬∃ k, items.length = 2 ^ k := by
      rw [← hmaplen]
      exact fun hc => hp ((isPow2_iff _).mpr hc)
    have hle : items.length ≤ 2 ^ Nat.clog 2 items.length :=
      Nat.le_pow_clog (by norm_num) _
    have hpad : padLevel (items.map (fun i => Node.leaf (some i))) =
        items.map (fun i => Node.leaf (some i)) ++
          List.replicate (2 ^ Nat.clog 2 items.length - items.length)
            (Node.leaf Option.none) := by
      rw [padLevel, if_neg hp, hmaplen, clog2_eq]
    refine ⟨?_, ?_, ?_, fun hc => absurd hc hnp⟩
    · rw [hpad]
      simp only [List.length_append, List.length_replicate, hmaplen]
      omega
    · rw [hpad, ← hmaplen, List.take_left]
    · rw [hpad, ← hmaplen, List.drop_left]

/-- Witness for C7 at `items = [b"a", b"b", b"c"]` (padded to four leaves). -/
theorem claim7_witness :
    ([[97], [98], [99]] : List Bytes) ≠ [] ∧
    ((padLevel (([[97], [98], [99]] : List Bytes).map
        (fun i => Node.leaf (some i)))).length = 2 ^ Nat.clog 2 3 ∧
     (padLevel (([[97], [98], [99]] : List Bytes).map
        (fun i => Node.leaf (some i)))).take 3 =
       ([[97], [98], [99]] : List Bytes).map (fun i => Node.leaf (some i)) ∧
     (padLevel (([[97], [98], [99]] : List Bytes).map
        (fun i => Node.leaf (some i)))).drop 3 =
       List.replicate (2 ^ Nat.clog 2 3 - 3) (Node.leaf Option.none) ∧
     ((∃ k, (3 : Nat) = 2 ^ k) →
       padLevel (([[97], [98], [99]] : List Bytes).map (fun i => Node.leaf (some i))) =
         ([[97], [98], [99]] : List Bytes).map (fun i => Node.leaf (some i)))) :=
  ⟨by decide, claim7_padding [[97], [98], [99]] (by decide)⟩

/--
C8 is a code bug: the spec requires malformed proof shapes to be rejected with
`false` or a defined error, never an uncaught exception, but the empty-list
proof makes `hash_item` evaluate `i[0]` on an empty list, raising an uncaught
`IndexError`.  (Lists holding non-string non-list values likewise raise
`TypeError` from `sorted`.)
-/
theorem claim8_indexError :
    validateProof [97] "00" (.list []) = .error .indexError := rfl

set_option maxRecDepth 40000 in
/--
C9, as stated, is false: when the queried digest occurs in both children's
subtrees, `make_merkle_proof` returns `[lh, rh]` with *two* sub-proof lists
and no plain sibling digest.  Concrete input: `items = [b"a", b"b", b"a",
b"c"]`, `item = b"a"` (the two `b"a"` leaves end up in different subtrees).
-/
theorem claim9_counterexample :
    ¬(∀ (items : List Bytes) (item : Bytes) (t : Node) (p : Py),
      makeMerkleTree items = some (.node t) → makeMerkleProof item t = .ok p →
      p ≠ .none → singlePath p = true) := by
  intro hclaim
  have hmk : makeMerkleTree [[97], [98], [97], [99]] = some (.node
      (.parent (.parent (.leaf (some [98])) (.leaf (some [97])))
               (.parent (.leaf (some [99])) (.leaf (some [97]))))) := by decide
  have hp : makeMerkleProof [97]
      (.parent (.parent (.leaf (some [98])) (.leaf (some [97])))
               (.parent (.leaf (some [99])) (.leaf (some [97])))) =
      .ok (.list [.list [.str (h [98])], .list [.str (h [99])]]) := by decide
  have hsp := hclaim _ _ _ _ hmk hp (fun hc => Py.noConfusion hc)
  rw [show singlePath (.list [.list [.str (h [98])], .list [.str (h [99])]]) = false
    from rfl] at hsp
  cases hsp

/--
C9 (amended): on a searchable tree in which no internal node has the queried
digest in both children's subtrees, any proof returned carries a single
matching path — one sub-proof slot per level, the other slot a plain sibling
digest string.  When the digest occurs on both sides of some node, both slots
carry sub-proofs instead.
-/
theorem claim9_single (item : Bytes) {t : Node} (hs : SearchOK t) :
    NoSplit (h item) t → ∀ p, makeMerkleProof item t = .ok p → p ≠ .none →
      singlePath p = true := by
  induction hs with
  | pair c c' =>
    intro _ p hp hne
    rw [makeMerkleProof_parent_leaf] at hp
    split at hp
    · cases hp
      rfl
    · split at hp
      · cases hp
        rfl
      · cases hp
        exact absurd rfl hne
  | @node l r hl hr ihl ihr =>
    intro hns p hp hne
    obtain ⟨l1, r1, rfl⟩ := searchOK_isParent hl
    cases hns with
    | parent hboth hnsl hnsr =>
      cases hcl : makeMerkleProof item (.parent l1 r1) with
      | error e =>
        rw [makeMerkleProof_pp_errL item l1 r1 r hcl] at hp
        cases hp
      | ok lh =>
        cases hcr : makeMerkleProof item r with
        | error e =>
          rw [makeMerkleProof_pp_errR item l1 r1 r hcl hcr] at hp
          cases hp
        | ok rh =>
          rw [makeMerkleProof_pp_ok item l1 r1 r hcl hcr] at hp
          by_cases hc : lh.isNone ∧ rh.isNone
          · rw [if_pos hc] at hp
            cases hp
            exact absurd rfl hne
          · rw [if_neg hc] at hp
            cases hp
            by_cases hln : lh = .none
            · have hrn : rh ≠ .none := fun h0 =>
                hc ⟨(isNone_iff _).mpr hln, (isNone_iff _).mpr h0⟩
              subst hln
              rcases proof_shape item r rh hcr with rfl | ⟨a2, tl, rfl⟩
              · exact absurd rfl hrn
              · rw [pyOr_none, pyOr_cons, singlePath_pair,
                  ihr hnsr _ hcr hrn]
                rfl
            · by_cases hrn : rh = .none
              · subst hrn
                rcases proof_shape item (.parent l1 r1) lh hcl with rfl | ⟨a2, tl, rfl⟩
                · exact absurd rfl hln
                · rw [pyOr_none, pyOr_cons, singlePath_pair,
                    ihl hnsl _ hcl hln]
                  rfl
              · exact absurd
                  ⟨makeMerkleProof_mem item hl lh hcl hln,
                   makeMerkleProof_mem item hr rh hcr hrn⟩ hboth

/-- Witness for the amended C9 at the two-leaf tree over `[b"a", b"b"]`, `item = b"a"`. -/
theorem claim9_witness :
    makeMerkleProof [97] (.parent (.leaf (some [98])) (.leaf (some [97]))) =
      .ok (.list [.str (Node.hash (.leaf (some [98])))]) ∧
    singlePath (.list [.str (Node.hash (.leaf (some [98])))]) = true :=
  ⟨by decide,
   claim9_single [97] (SearchOK.pair (some [98]) (some [97]))
     (NoSplit.parent
       (by
         rintro ⟨h1, -⟩
         rw [leafHashes_leaf] at h1
         exact absurd (List.mem_singleton.mp h1) (by decide))
       (NoSplit.leaf _) (NoSplit.leaf _))
     _ (by decide) (fun hc => Py.noConfusion hc)⟩

/--
C10: appending extra elements to a proof list of length at least two does not
change the verdict of `validate_proof`, because `hash_item` inspects only the
first two elements of any list whose length is not one.
-/
theorem claim10_append (item : Bytes) (root : String) (p : List Py) (x : Py)
    (hlen : 2 ≤ p.length) :
    validateProof item root (.list (p ++ [x])) = validateProof item root (.list p) := by
  rcases p with - | ⟨a, p2⟩
  · simp at hlen
  · rcases p2 with - | ⟨b, p3⟩
    · simp at hlen
    · exact validateProof_congr item root (fun hc => Py.noConfusion hc)
        (fun hc => Py.noConfusion hc)
        (by rw [show (a :: b :: p3) ++ [x] = a :: b :: (p3 ++ [x]) from rfl,
          hashItem_pair, hashItem_pair])

/-- Witness for C10 at `p = ["aa", "bb"]`, extra element `7`. -/
theorem claim10_witness :
    2 ≤ ([.str "aa", .str "bb"] : List Py).length ∧
    validateProof [97] "cc" (.list ([.str "aa", .str "bb"] ++ [.int 7])) =
      validateProof [97] "cc" (.list [.str "aa", .str "bb"]) :=
  ⟨by decide, claim10_append [97] "cc" [.str "aa", .str "bb"] (.int 7) (by decide)⟩
